import Mathlib

/-!
Verification of the core simulation algorithms of the CN-Project network
simulator (`main.py`): the per-flow TCP-style congestion-control state
machine, the bounded event log, packet spawning, and Dijkstra's
shortest-path routine.  All definitions are shallow embeddings of the
corresponding Python functions; real-valued quantities (`cwnd`,
`ssthresh`, `rtt`, node congestion) are modelled as rationals.
-/

namespace CNProject

/-- Congestion-control algorithm variant (`self.congestion_algorithm`). -/
inductive Algorithm where
  | reno
  | tahoe
deriving DecidableEq, Repr

/-- TCP phase of a flow (`Packet.phase`). -/
inductive Phase where
  | slow_start
  | congestion_avoidance
  | fast_retransmit
  | fast_recovery
deriving DecidableEq, Repr

/-- The flow-state fields of the Python `Packet` class (`Packet.__init__`).
Wall-clock timestamps (`timestamp`, `last_ack_time`), byte counters and the
display colour are omitted: no verified claim mentions them and they feed no
state transition. -/
structure Packet where
  source : ℕ
  destination : ℕ
  path : List ℕ
  current_index : ℕ
  progress : ℚ
  completed : Bool
  packet_id : ℕ
  total_latency : ℕ
  cwnd : ℚ
  ssthresh : ℚ
  phase : Phase
  dup_ack_count : ℕ
  rtt : ℚ
  lost : Bool
  retransmitted : Bool
deriving DecidableEq, Repr

/-- Initial packet state as set by `Packet.__init__`. -/
def mkPacket (source destination : ℕ) (path : List ℕ) (packet_id : ℕ) : Packet :=
  { source := source
    destination := destination
    path := path
    current_index := 0
    progress := 0
    completed := false
    packet_id := packet_id
    total_latency := 0
    cwnd := 1
    ssthresh := 64
    phase := Phase.slow_start
    dup_ack_count := 0
    rtt := 0
    lost := false
    retransmitted := false }

/-- Embeds `Packet.update_cwnd` (main.py lines 81-95). -/
def update_cwnd (algorithm : Algorithm) (p : Packet) : Packet :=
  match p.phase with
  | Phase.slow_start =>
      let c := min (p.cwnd * 2) p.ssthresh
      if c ≥ p.ssthresh then
        { p with cwnd := c, phase := Phase.congestion_avoidance }
      else
        { p with cwnd := c }
  | Phase.congestion_avoidance =>
      { p with cwnd := p.cwnd + 1 / max p.cwnd 1 }
  | Phase.fast_recovery =>
      if algorithm = Algorithm.reno then { p with cwnd := p.cwnd + 1 } else p
  | Phase.fast_retransmit => p

/-- Embeds `handle_fast_retransmit_reno` (main.py lines 1030-1045): the transient
`fast_retransmit` phase is immediately overwritten by `fast_recovery`. -/
def handle_fast_retransmit_reno (p : Packet) : Packet :=
  let ss := max (p.cwnd / 2) 2
  { p with ssthresh := ss
           cwnd := ss + 3
           phase := Phase.fast_recovery
           retransmitted := true
           dup_ack_count := 0 }

/-- Embeds `handle_fast_retransmit_tahoe` (main.py lines 1048-1063): the transient
`fast_retransmit` phase is immediately overwritten by `slow_start`. -/
def handle_fast_retransmit_tahoe (p : Packet) : Packet :=
  let ss := max (p.cwnd / 2) 2
  { p with ssthresh := ss
           cwnd := 1
           phase := Phase.slow_start
           retransmitted := true
           dup_ack_count := 0 }

/-- Embeds `handle_timeout_reno` (main.py lines 1066-1080). -/
def handle_timeout_reno (p : Packet) : Packet :=
  { p with ssthresh := max (p.cwnd / 2) 2
           cwnd := 1
           phase := Phase.slow_start
           lost := true
           dup_ack_count := 0 }

/-- Embeds `handle_timeout_tahoe` (main.py lines 1083-1097). -/
def handle_timeout_tahoe (p : Packet) : Packet :=
  { p with ssthresh := max (p.cwnd / 2) 2
           cwnd := 1
           phase := Phase.slow_start
           lost := true
           dup_ack_count := 0 }

/-- Embeds `handle_congestion_control` (main.py lines 978-1027), the per-hop-entry
state transition of a flow.  `node_latency` and `node_congestion` are the
entry node's latency and congestion accumulator.  Event recording touches
only the event log, never the packet, so it is elided here. -/
def handle_congestion_control (alg : Algorithm) (node_latency node_congestion : ℚ)
    (p : Packet) : Packet :=
  let p := { p with rtt := node_latency + node_congestion * 5 }
  if node_congestion > 9 then
    let p := match alg with
      | Algorithm.reno => handle_timeout_reno p
      | Algorithm.tahoe => handle_timeout_tahoe p
    { p with dup_ack_count := 0 }
  else if node_congestion > 7 then
    let p := { p with dup_ack_count := p.dup_ack_count + 1 }
    if p.dup_ack_count ≥ 3 then
      match alg with
      | Algorithm.reno => handle_fast_retransmit_reno p
      | Algorithm.tahoe => handle_fast_retransmit_tahoe p
    else p
  else if node_congestion > 5 ∧ p.phase = Phase.fast_recovery ∧ alg = Algorithm.reno then
    { p with cwnd := p.cwnd + 1 }
  else
    let p := { p with dup_ack_count := 0 }
    if p.phase = Phase.fast_recovery ∧ alg = Algorithm.reno then
      { p with cwnd := p.ssthresh, phase := Phase.congestion_avoidance }
    else
      let previous_cwnd := p.cwnd
      let p2 := update_cwnd alg p
      if previous_cwnd < p2.ssthresh ∧ p2.ssthresh ≤ p2.cwnd then
        { p2 with phase := Phase.congestion_avoidance }
      else p2

/-- One hop-entry evaluation step, packaged for folding over an input
sequence: each element supplies the algorithm in force and the entry node's
latency and congestion. -/
def ccStep (p : Packet) (input : Algorithm × ℚ × ℚ) : Packet :=
  handle_congestion_control input.1 input.2.1 input.2.2 p

/-- A flow fresh out of `Packet.__init__`, before any hop-entry evaluation. -/
def initPacket : Packet := mkPacket 0 1 [0, 1] 1

/-- Kinds of packet events (the `event_type` strings of `main.py`). -/
inductive EventType where
  | created
  | manual_created
  | ack_received
  | phase_transition_CA
  | fast_retransmit
  | timeout
  | exit_fast_recovery
  | cwnd_inflation
  | hop_completed
  | delivered
  | dropped
deriving DecidableEq, Repr

/-- The `phase` field stored in an event record: either a TCP phase or the
literal marker used by `record_packet_event_dropped`. -/
inductive EvPhase where
  | ofPhase (p : Phase)
  | droppedMarker
deriving DecidableEq, Repr

/-- An entry of `self.packet_events` (the dict built in
`record_packet_event` / `record_packet_event_dropped`). -/
structure PacketEvent where
  time : ℚ
  packet_id : ℕ
  cwnd : ℚ
  phase : EvPhase
  rtt : ℚ
  event_type : EventType
  throughput : ℚ
  node_congestion : ℚ
deriving DecidableEq, Repr

/-- The `important_events` set of `record_packet_event` (main.py line 1107). -/
def important_event (e : EventType) : Bool :=
  match e with
  | EventType.created => true
  | EventType.delivered => true
  | EventType.dropped => true
  | EventType.timeout => true
  | EventType.fast_retransmit => true
  | EventType.exit_fast_recovery => true
  | EventType.manual_created => true
  | _ => false

/-- The event record built by `record_packet_event` (main.py lines 1113-1128)
from a packet, a clock reading and the node-congestion lookup table. -/
def mkEvent (congestion : ℕ → ℚ) (time : ℚ) (et : EventType) (p : Packet) : PacketEvent :=
  { time := time
    packet_id := p.packet_id
    cwnd := p.cwnd
    phase := EvPhase.ofPhase p.phase
    rtt := p.rtt
    event_type := et
    throughput := if p.rtt > 0 then p.cwnd * 1500 * 8 / (p.rtt / 1000) / 1000000 else 0
    node_congestion :=
      if p.current_index < p.path.length then congestion (p.path.getD p.current_index 0) else 0 }

/-- Embeds `record_packet_event` (main.py lines 1100-1133) restricted to its effect
on the event log.  `sampleKeep` stands for the outcome of the 10% sampling
draw (`random.random() <= 0.10`); important events are always kept.  After
appending, only the last 500 entries are retained. -/
def record_packet_event (sampleKeep : Bool) (e : PacketEvent)
    (log : List PacketEvent) : List PacketEvent :=
  if ¬ important_event e.event_type ∧ ¬ sampleKeep then
    log
  else if (log ++ [e]).length > 500 then
    (log ++ [e]).drop ((log ++ [e]).length - 500)
  else
    log ++ [e]

/-- Embeds `record_packet_event_dropped` (main.py lines 2048-2061): appends a fixed
dropped-packet record.  Note: unlike `record_packet_event`, it enforces no
cap on the log length. -/
def record_packet_event_dropped (time : ℚ) (packet_id : ℕ)
    (log : List PacketEvent) : List PacketEvent :=
  log ++ [{ time := time
            packet_id := packet_id
            cwnd := 0
            phase := EvPhase.droppedMarker
            rtt := 0
            event_type := EventType.dropped
            throughput := 0
            node_congestion := 0 }]

/-- The topology: nodes are indices `0 .. n-1`; `latency` is the per-node
latency (`NetworkNode.latency`) and `adj u v` states that `v` appears in
`u.connections`. -/
structure Graph where
  n : ℕ
  latency : ℕ → ℕ
  adj : ℕ → ℕ → Bool

/-- A well-formed topology only connects existing nodes (Python connections
are references to node objects held in `self.nodes`). -/
def Graph.WF (g : Graph) : Prop :=
  ∀ u v, g.adj u v = true → u < g.n ∧ v < g.n

/-- Embeds `node.connections` of node `u`: the neighbours of `u`, in node order. -/
def Graph.connections (g : Graph) (u : ℕ) : List ℕ :=
  (List.range g.n).filter (fun v => g.adj u v)

/-- Strict comparison of tentative distances, where `none` plays the role of
`float('infinity')`. -/
def optLt : Option ℕ → Option ℕ → Bool
  | some a, some b => decide (a < b)
  | some _, none => true
  | none, _ => false

/-- Embeds `min(unvisited, key=lambda node: distances[node])`: the first node of the
list attaining the minimum tentative distance. -/
def argmin (dist : ℕ → Option ℕ) : List ℕ → Option ℕ
  | [] => none
  | x :: xs => some (xs.foldl (fun best y => if optLt (dist y) (dist best) then y else best) x)

/-- Body of the neighbour-relaxation loop of `dijkstra_shortest_path`
(main.py lines 2609-2616): if neighbour `j` is still unvisited and
`distances[current] + current.latency` improves on its tentative distance,
lower it and record `current` as its predecessor. -/
def relaxStep (g : Graph) (current : ℕ) (dc : ℕ) (unvisited : List ℕ)
    (dp : (ℕ → Option ℕ) × (ℕ → Option ℕ)) (j : ℕ) :
    (ℕ → Option ℕ) × (ℕ → Option ℕ) :=
  if j ∈ unvisited then
    if optLt (some (dc + g.latency current)) (dp.1 j) then
      (Function.update dp.1 j (some (dc + g.latency current)),
       Function.update dp.2 j (some current))
    else dp
  else dp

/-- The neighbour-relaxation loop of `dijkstra_shortest_path` (main.py lines
2608-2616): `relaxStep` applied to every neighbour of `current`. -/
def relax (g : Graph) (current : ℕ) (dc : ℕ) (unvisited : List ℕ)
    (dist prev : ℕ → Option ℕ) : (ℕ → Option ℕ) × (ℕ → Option ℕ) :=
  (g.connections current).foldl (relaxStep g current dc unvisited) (dist, prev)

/-- Path reconstruction (main.py lines 2600-2603): follow `previous` pointers
from the destination, collecting nodes until a node with no predecessor.
The Python `while current:` loop is given fuel here; every call supplies
enough fuel for the predecessor chain. -/
def reconstructPath (prev : ℕ → Option ℕ) : ℕ → ℕ → List ℕ
  | 0, _ => []
  | fuel + 1, v =>
      v :: (match prev v with
            | none => []
            | some u => reconstructPath prev fuel u)

/-- The main loop of `dijkstra_shortest_path` (main.py lines 2591-2616).
Each iteration pops the unvisited node of minimum tentative distance,
breaking off when that minimum is infinite, returning the reconstructed
path (reversed) and the destination's distance when the destination is
popped, and otherwise relaxing the popped node's neighbours.  The Python
`while unvisited:` loop runs at most `|unvisited|` iterations, so the fuel
supplied by `dijkstra_shortest_path` never runs out. -/
def dijkstraLoop (g : Graph) (destination : ℕ) :
    ℕ → (ℕ → Option ℕ) → (ℕ → Option ℕ) → List ℕ → Option (List ℕ × ℕ)
  | 0, _, _, _ => none
  | fuel + 1, dist, prev, unvisited =>
      match argmin dist unvisited with
      | none => none
      | some current =>
          match dist current with
          | none => none
          | some dc =>
              if current = destination then
                some ((reconstructPath prev (g.n + 2) destination).reverse, dc)
              else
                let unvisited' := unvisited.erase current
                let dp := relax g current dc unvisited' dist prev
                dijkstraLoop g destination fuel dp.1 dp.2 unvisited'

/-- Embeds `dijkstra_shortest_path` (main.py lines 2584-2618).  Distances start at
infinity except the source at `0`; the result is `none` exactly where Python
returns `(None, float('infinity'))`. -/
def dijkstra_shortest_path (g : Graph) (source destination : ℕ) : Option (List ℕ × ℕ) :=
  dijkstraLoop g destination (g.n + 1)
    (Function.update (fun _ => none) source (some 0))
    (fun _ => none)
    (List.range g.n)

/-- Sum of the latencies of every node on a path except the last (the cost
attribution of the simulator: traversing an edge costs the latency of the
node being left). -/
def path_cost (g : Graph) (p : List ℕ) : ℕ :=
  (p.dropLast.map g.latency).sum

/-- Reachability in the topology: some node sequence starts at `s`, ends at
`d`, and follows adjacency. -/
def Reach (g : Graph) (s d : ℕ) : Prop :=
  ∃ p : List ℕ, p.head? = some s ∧ p.getLast? = some d ∧
    List.Chain' (fun a b => g.adj a b = true) p

/-- Traffic-load preset (`self.traffic_load`). -/
inductive Load where
  | light
  | medium
  | heavy
deriving DecidableEq, Repr

/-- The congestion increment applied to each node of a freshly routed path
(main.py lines 1817-1822). -/
def congestion_factor : Load → ℚ
  | Load.light => 1 / 2
  | Load.medium => 1
  | Load.heavy => 2

/-- The simulator state components read or written by `spawn_packet`:
topology, per-node congestion accumulators, active packet list, packet
counter, event log and the relevant configuration. -/
structure SimState where
  g : Graph
  congestion : ℕ → ℚ
  packets : List Packet
  packet_counter : ℕ
  packet_events : List PacketEvent
  traffic_load : Load
  packet_loss_rate : ℚ

/-- Embeds `spawn_packet` (main.py lines 1792-1830).  `time` is the clock reading
used for event records, `lossRand` the `random.random()` draw of the loss
check, and `sampleKeep` the sampling draw inside `record_packet_event`.
Returns the new state and the Python boolean result. -/
def spawn_packet (time lossRand : ℚ) (sampleKeep : Bool) (manual : Bool)
    (source destination : ℕ) (st : SimState) : SimState × Bool :=
  match dijkstra_shortest_path st.g source destination with
  | none => (st, false)
  | some (path, total_latency) =>
      let next_packet_id := st.packet_counter + 1
      if ¬ manual ∧ lossRand < st.packet_loss_rate / 100 then
        ({ st with packet_events := record_packet_event_dropped time next_packet_id st.packet_events,
                   packet_counter := next_packet_id }, false)
      else
        let packet := { mkPacket source destination path next_packet_id with
                          total_latency := total_latency }
        let st := { st with packet_counter := next_packet_id,
                            packets := st.packets ++ [packet] }
        let et := if manual then EventType.manual_created else EventType.created
        let newLog := record_packet_event sampleKeep (mkEvent st.congestion time et packet)
          st.packet_events
        let st := { st with packet_events := newLog }
        let factor := congestion_factor st.traffic_load
        let newCong := path.foldl (fun c v => Function.update c v (min 10 (c v + factor)))
          st.congestion
        let st := { st with congestion := newCong }
        (st, true)

/-- Embeds `send_manual_packet` (main.py lines 1833-1877) restricted to the
simulation state.  The two dropdown selections are modelled as optional node
identities (`none` when no selection was made); a selected node exists when
its identity is below `g.n`.  UI bookkeeping (pausing, manual mode flags,
panels) is presentation and does not touch the modelled state. -/
def send_manual_packet (time lossRand : ℚ) (sampleKeep : Bool)
    (source_sel dest_sel : Option ℕ) (st : SimState) : SimState × Bool :=
  if st.g.n < 2 then (st, false)
  else
    match source_sel, dest_sel with
    | some s, some d =>
        if s = d then (st, false)
        else if s < st.g.n ∧ d < st.g.n then
          spawn_packet time lossRand sampleKeep true s d st
        else (st, false)
    | _, _ => (st, false)

/-- A concrete event record, used to instantiate event-log statements. -/
def exEvent : PacketEvent :=
  mkEvent (fun _ => 0) 0 EventType.created initPacket

/-- The linear example topology A-B-C of the specification: node 0 is A with
latency 10, node 1 is B with latency 20, node 2 is C; edges A-B and B-C. -/
def exABC : Graph :=
  { n := 3
    latency := fun i => if i = 0 then 10 else if i = 1 then 20 else 5
    adj := fun u v =>
      (u == 0 && v == 1) || (u == 1 && v == 0) || (u == 1 && v == 2) || (u == 2 && v == 1) }

/-- A concrete simulator state over the example topology, used to
instantiate state-level statements. -/
def exState : SimState :=
  { g := exABC
    congestion := fun _ => 0
    packets := []
    packet_counter := 0
    packet_events := []
    traffic_load := Load.medium
    packet_loss_rate := 0 }

/-- Loop invariant of `dijkstra_shortest_path`, at entry of each iteration
of the main loop with tentative distances `dist`, predecessor map `prev` and
worklist `unvisited`, for source `s`.  The rank function `rk` witnesses the
order in which nodes were popped, making predecessor chains well-founded. -/
def DInv (g : Graph) (s : ℕ) (dist prev : ℕ → Option ℕ) (unvisited : List ℕ) : Prop :=
  ∃ rk : ℕ → ℕ,
    (∀ v u, prev v = some u →
        g.adj u v = true ∧ u ∉ unvisited ∧ u < g.n ∧
        ∃ du, dist u = some du ∧ dist v = some (du + g.latency u)) ∧
    (∀ v u, prev v = some u → v ∉ unvisited → rk u < rk v) ∧
    (∀ u, rk u ≤ g.n - unvisited.length) ∧
    dist s = some 0 ∧
    prev s = none ∧
    (∀ v, v ≠ s → dist v ≠ none → prev v ≠ none) ∧
    unvisited.Nodup ∧
    (∀ v ∈ unvisited, v < g.n) ∧
    (∀ p, p < g.n → p ∉ unvisited →
        dist p ≠ none ∧ ∀ q, g.adj p q = true → q < g.n → dist q ≠ none)

/-! ### Characterization lemmas for `handle_congestion_control` -/

theorem hcc_timeout (alg : Algorithm) (lat c : ℚ) (p : Packet) (h : c > 9) :
    handle_congestion_control alg lat c p =
      { p with rtt := lat + c * 5
               ssthresh := max (p.cwnd / 2) 2
               cwnd := 1
               phase := Phase.slow_start
               lost := true
               dup_ack_count := 0 } := by
  cases alg <;>
    simp [handle_congestion_control, handle_timeout_reno, handle_timeout_tahoe, h]

theorem hcc_dup_small (alg : Algorithm) (lat c : ℚ) (p : Packet)
    (h9 : ¬ c > 9) (h7 : c > 7) (hd : p.dup_ack_count + 1 < 3) :
    handle_congestion_control alg lat c p =
      { p with rtt := lat + c * 5
               dup_ack_count := p.dup_ack_count + 1 } := by
  have hd' : ¬ p.dup_ack_count + 1 ≥ 3 := by omega
  simp [handle_congestion_control, h9, h7, hd']

theorem hcc_dup_fire_reno (lat c : ℚ) (p : Packet)
    (h9 : ¬ c > 9) (h7 : c > 7) (hd : p.dup_ack_count + 1 ≥ 3) :
    handle_congestion_control Algorithm.reno lat c p =
      { p with rtt := lat + c * 5
               ssthresh := max (p.cwnd / 2) 2
               cwnd := max (p.cwnd / 2) 2 + 3
               phase := Phase.fast_recovery
               retransmitted := true
               dup_ack_count := 0 } := by
  simp [handle_congestion_control, h9, h7, hd, handle_fast_retransmit_reno]

theorem hcc_dup_fire_tahoe (lat c : ℚ) (p : Packet)
    (h9 : ¬ c > 9) (h7 : c > 7) (hd : p.dup_ack_count + 1 ≥ 3) :
    handle_congestion_control Algorithm.tahoe lat c p =
      { p with rtt := lat + c * 5
               ssthresh := max (p.cwnd / 2) 2
               cwnd := 1
               phase := Phase.slow_start
               retransmitted := true
               dup_ack_count := 0 } := by
  simp [handle_congestion_control, h9, h7, hd, handle_fast_retransmit_tahoe]

theorem hcc_normal_slow_start (alg : Algorithm) (lat c : ℚ) (p : Packet)
    (h7 : ¬ c > 7) (hp : p.phase = Phase.slow_start) :
    handle_congestion_control alg lat c p =
      { p with rtt := lat + c * 5
               dup_ack_count := 0
               cwnd := min (p.cwnd * 2) p.ssthresh
               phase := if p.ssthresh ≤ p.cwnd * 2 then Phase.congestion_avoidance
                        else Phase.slow_start } := by
  have h9 : ¬ c > 9 := by linarith
  have h5 : ¬ (c > 5 ∧ p.phase = Phase.fast_recovery ∧ alg = Algorithm.reno) := by
    simp [hp]
  have hfr : ¬ (p.phase = Phase.fast_recovery ∧ alg = Algorithm.reno) := by simp [hp]
  by_cases hca : p.ssthresh ≤ p.cwnd * 2
  · have hmin : min (p.cwnd * 2) p.ssthresh = p.ssthresh := min_eq_right hca
    simp only [handle_congestion_control, if_neg h9, if_neg h7, if_neg h5, if_neg hfr,
      update_cwnd, hp, hmin, if_pos (le_refl p.ssthresh), hca, if_pos]
    by_cases hlt : p.cwnd < p.ssthresh <;> simp [hlt]
  · have hca' : ¬ p.ssthresh ≤ min (p.cwnd * 2) p.ssthresh := by
      simp only [le_min_iff]
      tauto
    have hlt : p.cwnd * 2 < p.ssthresh := lt_of_not_le hca
    have hmin : min (p.cwnd * 2) p.ssthresh = p.cwnd * 2 := min_eq_left (le_of_lt hlt)
    simp only [handle_congestion_control, if_neg h9, if_neg h7, if_neg h5, if_neg hfr,
      update_cwnd, hp, if_neg hca']
    simp only [hmin] at hca' ⊢
    have : ¬ (p.cwnd < p.ssthresh ∧ p.ssthresh ≤ p.cwnd * 2) := by
      intro hx
      exact hca (by linarith [hx.2])
    simp [this, hca]

theorem hcc_inflation (lat c : ℚ) (p : Packet)
    (h7 : ¬ c > 7) (h5 : c > 5) (hp : p.phase = Phase.fast_recovery) :
    handle_congestion_control Algorithm.reno lat c p =
      { p with rtt := lat + c * 5
               cwnd := p.cwnd + 1 } := by
  have h9 : ¬ c > 9 := by linarith
  simp [handle_congestion_control, h9, h7, h5, hp]

theorem hcc_normal_exit_fr (lat c : ℚ) (p : Packet)
    (h5 : ¬ c > 5) (hp : p.phase = Phase.fast_recovery) :
    handle_congestion_control Algorithm.reno lat c p =
      { p with rtt := lat + c * 5
               dup_ack_count := 0
               cwnd := p.ssthresh
               phase := Phase.congestion_avoidance } := by
  have h9 : ¬ c > 9 := by linarith
  have h7 : ¬ c > 7 := by linarith
  simp [handle_congestion_control, h9, h7, h5, hp]

theorem hcc_normal_fr_tahoe (lat c : ℚ) (p : Packet)
    (h7 : ¬ c > 7) (hp : p.phase = Phase.fast_recovery) :
    handle_congestion_control Algorithm.tahoe lat c p =
      { p with rtt := lat + c * 5
               dup_ack_count := 0 } := by
  have h9 : ¬ c > 9 := by linarith
  have hno : ¬ (p.cwnd < p.ssthresh ∧ p.ssthresh ≤ p.cwnd) := by
    rintro ⟨ha, hb⟩
    exact absurd (lt_of_lt_of_le ha hb) (lt_irrefl _)
  simp [handle_congestion_control, h9, h7, hp, update_cwnd, hno]

theorem hcc_normal_frx (alg : Algorithm) (lat c : ℚ) (p : Packet)
    (h7 : ¬ c > 7) (hp : p.phase = Phase.fast_retransmit) :
    handle_congestion_control alg lat c p =
      { p with rtt := lat + c * 5
               dup_ack_count := 0 } := by
  have h9 : ¬ c > 9 := by linarith
  have hno : ¬ (p.cwnd < p.ssthresh ∧ p.ssthresh ≤ p.cwnd) := by
    rintro ⟨ha, hb⟩
    exact absurd (lt_of_lt_of_le ha hb) (lt_irrefl _)
  simp [handle_congestion_control, h9, h7, hp, update_cwnd, hno]

theorem hcc_normal_ca (alg : Algorithm) (lat c : ℚ) (p : Packet)
    (h7 : ¬ c > 7) (hp : p.phase = Phase.congestion_avoidance) :
    handle_congestion_control alg lat c p =
      { p with rtt := lat + c * 5
               dup_ack_count := 0
               cwnd := p.cwnd + 1 / max p.cwnd 1 } := by
  have h9 : ¬ c > 9 := by linarith
  by_cases hcond : p.cwnd < p.ssthresh ∧ p.ssthresh ≤ p.cwnd + 1 / max p.cwnd 1 <;>
    simp [handle_congestion_control, h9, h7, hp, update_cwnd, hcond]

/-! ### Invariant preservation -/

theorem ccStep_floors (alg : Algorithm) (lat c : ℚ) (p : Packet)
    (h1 : 1 ≤ p.cwnd) (h2 : 2 ≤ p.ssthresh) :
    1 ≤ (handle_congestion_control alg lat c p).cwnd ∧
      2 ≤ (handle_congestion_control alg lat c p).ssthresh := by
  by_cases h9 : c > 9
  · rw [hcc_timeout alg lat c p h9]
    refine ⟨by norm_num, ?_⟩
    simp only
    exact le_max_right (p.cwnd / 2) 2
  · by_cases h7 : c > 7
    · by_cases hd : p.dup_ack_count + 1 ≥ 3
      · have hmax : (2:ℚ) ≤ max (p.cwnd / 2) 2 := le_max_right _ _
        cases alg
        · rw [hcc_dup_fire_reno lat c p h9 h7 hd]
          refine ⟨?_, ?_⟩ <;> simp only <;> linarith
        · rw [hcc_dup_fire_tahoe lat c p h9 h7 hd]
          refine ⟨?_, ?_⟩ <;> simp only <;> linarith
      · have hd' : p.dup_ack_count + 1 < 3 := by omega
        rw [hcc_dup_small alg lat c p h9 h7 hd']
        exact ⟨h1, h2⟩
    · cases hp : p.phase
      · rw [hcc_normal_slow_start alg lat c p h7 hp]
        refine ⟨?_, h2⟩
        simp only
        exact le_min (by linarith) (by linarith)
      · rw [hcc_normal_ca alg lat c p h7 hp]
        have hmx : (0:ℚ) < max p.cwnd 1 := lt_of_lt_of_le zero_lt_one (le_max_right _ _)
        have : (0:ℚ) ≤ 1 / max p.cwnd 1 := le_of_lt (div_pos zero_lt_one hmx)
        constructor
        · simp only
          linarith
        · exact h2
      · rw [hcc_normal_frx alg lat c p h7 hp]
        exact ⟨h1, h2⟩
      · cases alg
        · by_cases h5 : c > 5
          · rw [hcc_inflation lat c p h7 h5 hp]
            constructor
            · simp only
              linarith
            · exact h2
          · rw [hcc_normal_exit_fr lat c p h5 hp]
            constructor
            · simp only
              linarith
            · exact h2
        · rw [hcc_normal_fr_tahoe lat c p h7 hp]
          exact ⟨h1, h2⟩

/-- C2: every hop-entry evaluation, under any algorithm and any node
latency/congestion values, keeps `cwnd ≥ 1` and `ssthresh ≥ 2` when they
held before; folding from the initial state `cwnd = 1, ssthresh = 64` the
floors therefore hold after every state transition. -/
theorem cwnd_ssthresh_floors_invariant (steps : List (Algorithm × ℚ × ℚ)) :
    1 ≤ (steps.foldl ccStep initPacket).cwnd ∧
      2 ≤ (steps.foldl ccStep initPacket).ssthresh := by
  suffices h : ∀ p : Packet, 1 ≤ p.cwnd → 2 ≤ p.ssthresh →
      1 ≤ (steps.foldl ccStep p).cwnd ∧ 2 ≤ (steps.foldl ccStep p).ssthresh by
    refine h initPacket ?_ ?_ <;> norm_num [initPacket, mkPacket]
  induction steps with
  | nil => exact fun p h1 h2 => ⟨h1, h2⟩
  | cons a l ih =>
      intro p h1 h2
      obtain ⟨alg, lat, c⟩ := a
      have hstep := ccStep_floors alg lat c p h1 h2
      exact ih _ hstep.1 hstep.2

theorem ccStep_tahoe_no_fr (lat c : ℚ) (p : Packet)
    (h : p.phase ≠ Phase.fast_recovery) :
    (handle_congestion_control Algorithm.tahoe lat c p).phase ≠ Phase.fast_recovery := by
  by_cases h9 : c > 9
  · rw [hcc_timeout Algorithm.tahoe lat c p h9]
    simp
  · by_cases h7 : c > 7
    · by_cases hd : p.dup_ack_count + 1 ≥ 3
      · rw [hcc_dup_fire_tahoe lat c p h9 h7 hd]
        simp
      · have hd' : p.dup_ack_count + 1 < 3 := by omega
        rw [hcc_dup_small Algorithm.tahoe lat c p h9 h7 hd']
        simp only
        exact h
    · cases hp : p.phase
      · rw [hcc_normal_slow_start Algorithm.tahoe lat c p h7 hp]
        by_cases hca : p.ssthresh ≤ p.cwnd * 2 <;> simp [hca]
      · rw [hcc_normal_ca Algorithm.tahoe lat c p h7 hp]
        simp [hp]
      · rw [hcc_normal_frx Algorithm.tahoe lat c p h7 hp]
        simp [hp]
      · exact absurd hp h

/-- C6: with the congestion algorithm fixed to Tahoe, a flow starting in
`slow_start` never has phase `fast_recovery`, whatever the sequence of
entry-node latencies and congestion values. -/
theorem tahoe_never_fast_recovery (steps : List (ℚ × ℚ)) :
    (steps.foldl (fun p i => handle_congestion_control Algorithm.tahoe i.1 i.2 p)
        initPacket).phase ≠ Phase.fast_recovery := by
  suffices h : ∀ p : Packet, p.phase ≠ Phase.fast_recovery →
      (steps.foldl (fun p i => handle_congestion_control Algorithm.tahoe i.1 i.2 p)
        p).phase ≠ Phase.fast_recovery by
    exact h initPacket (by decide)
  induction steps with
  | nil => exact fun p h => h
  | cons a l ih =>
      intro p h
      exact ih _ (ccStep_tahoe_no_fr a.1 a.2 p h)

/-- C4: a hop-entry with entry-node congestion severity above 9 forces,
under either algorithm, `ssthresh = max(cwnd/2, 2)`, `cwnd = 1`, phase
`slow_start`, the lost flag, and a reset duplicate counter. -/
theorem timeout_forces_slow_start (alg : Algorithm) (lat c : ℚ) (p : Packet)
    (h : c > 9) :
    (handle_congestion_control alg lat c p).ssthresh = max (p.cwnd / 2) 2 ∧
    (handle_congestion_control alg lat c p).cwnd = 1 ∧
    (handle_congestion_control alg lat c p).phase = Phase.slow_start ∧
    (handle_congestion_control alg lat c p).lost = true ∧
    (handle_congestion_control alg lat c p).dup_ack_count = 0 := by
  rw [hcc_timeout alg lat c p h]
  exact ⟨rfl, rfl, rfl, rfl, rfl⟩

/-- Witness for C4 at a concrete input: severity 10 under Tahoe from the
initial packet state. -/
theorem timeout_forces_slow_start_witness :
    (handle_congestion_control Algorithm.tahoe 0 10 initPacket).ssthresh =
        max (initPacket.cwnd / 2) 2 ∧
    (handle_congestion_control Algorithm.tahoe 0 10 initPacket).cwnd = 1 ∧
    (handle_congestion_control Algorithm.tahoe 0 10 initPacket).phase = Phase.slow_start ∧
    (handle_congestion_control Algorithm.tahoe 0 10 initPacket).lost = true ∧
    (handle_congestion_control Algorithm.tahoe 0 10 initPacket).dup_ack_count = 0 :=
  timeout_forces_slow_start Algorithm.tahoe 0 10 initPacket (by norm_num)

/-- C3: three consecutive hop-entries with severity in `(7, 9]` starting
from a zero duplicate counter leave `cwnd`, `ssthresh` and phase untouched
for two entries and fire fast retransmit on the third: under Reno the flow
enters `fast_recovery` with `ssthresh = max(prev_cwnd/2, 2)` and
`cwnd = ssthresh + 3`; under Tahoe it re-enters `slow_start` with
`cwnd = 1`; both set the retransmitted flag and reset the counter. -/
theorem fast_retransmit_after_three_dup_signals (alg : Algorithm)
    (l1 l2 l3 c1 c2 c3 : ℚ) (p : Packet)
    (hd : p.dup_ack_count = 0)
    (h1a : c1 > 7) (h1b : ¬ c1 > 9)
    (h2a : c2 > 7) (h2b : ¬ c2 > 9)
    (h3a : c3 > 7) (h3b : ¬ c3 > 9) :
    (alg = Algorithm.reno →
      (handle_congestion_control alg l3 c3 (handle_congestion_control alg l2 c2
          (handle_congestion_control alg l1 c1 p))).phase = Phase.fast_recovery ∧
      (handle_congestion_control alg l3 c3 (handle_congestion_control alg l2 c2
          (handle_congestion_control alg l1 c1 p))).cwnd = max (p.cwnd / 2) 2 + 3 ∧
      (handle_congestion_control alg l3 c3 (handle_congestion_control alg l2 c2
          (handle_congestion_control alg l1 c1 p))).ssthresh = max (p.cwnd / 2) 2 ∧
      (handle_congestion_control alg l3 c3 (handle_congestion_control alg l2 c2
          (handle_congestion_control alg l1 c1 p))).retransmitted = true ∧
      (handle_congestion_control alg l3 c3 (handle_congestion_control alg l2 c2
          (handle_congestion_control alg l1 c1 p))).dup_ack_count = 0) ∧
    (alg = Algorithm.tahoe →
      (handle_congestion_control alg l3 c3 (handle_congestion_control alg l2 c2
          (handle_congestion_control alg l1 c1 p))).phase = Phase.slow_start ∧
      (handle_congestion_control alg l3 c3 (handle_congestion_control alg l2 c2
          (handle_congestion_control alg l1 c1 p))).cwnd = 1 ∧
      (handle_congestion_control alg l3 c3 (handle_congestion_control alg l2 c2
          (handle_congestion_control alg l1 c1 p))).ssthresh = max (p.cwnd / 2) 2 ∧
      (handle_congestion_control alg l3 c3 (handle_congestion_control alg l2 c2
          (handle_congestion_control alg l1 c1 p))).retransmitted = true ∧
      (handle_congestion_control alg l3 c3 (handle_congestion_control alg l2 c2
          (handle_congestion_control alg l1 c1 p))).dup_ack_count = 0) := by
  have e1 : handle_congestion_control alg l1 c1 p =
      { p with rtt := l1 + c1 * 5, dup_ack_count := p.dup_ack_count + 1 } :=
    hcc_dup_small alg l1 c1 p h1b h1a (by omega)
  have e2 : handle_congestion_control alg l2 c2 (handle_congestion_control alg l1 c1 p) =
      { p with rtt := l2 + c2 * 5, dup_ack_count := p.dup_ack_count + 2 } := by
    rw [e1, hcc_dup_small alg l2 c2 _ h2b h2a (by simp [hd])]
  have hfire :
      ({ p with rtt := l2 + c2 * 5, dup_ack_count := p.dup_ack_count + 2 } : Packet).dup_ack_count + 1 ≥ 3 := by
    simp [hd]
  constructor
  · rintro rfl
    rw [e2, hcc_dup_fire_reno l3 c3 _ h3b h3a hfire]
    exact ⟨rfl, rfl, rfl, rfl, rfl⟩
  · rintro rfl
    rw [e2, hcc_dup_fire_tahoe l3 c3 _ h3b h3a hfire]
    exact ⟨rfl, rfl, rfl, rfl, rfl⟩

/-- Witness for C3 at a concrete input: three severity-8 entries under Reno
from the initial packet state enter fast recovery. -/
theorem fast_retransmit_after_three_dup_signals_witness :
    (handle_congestion_control Algorithm.reno 0 8 (handle_congestion_control Algorithm.reno 0 8
        (handle_congestion_control Algorithm.reno 0 8 initPacket))).phase =
      Phase.fast_recovery :=
  ((fast_retransmit_after_three_dup_signals Algorithm.reno 0 0 0 8 8 8 initPacket rfl
      (by norm_num) (by norm_num) (by norm_num) (by norm_num) (by norm_num)
      (by norm_num)).1 rfl).1

theorem ss_step_lt (alg : Algorithm) (lat c : ℚ) (p : Packet)
    (h7 : ¬ c > 7) (hph : p.phase = Phase.slow_start) (hss : p.ssthresh = 64)
    (hlt : p.cwnd * 2 < 64) :
    (handle_congestion_control alg lat c p).cwnd = p.cwnd * 2 ∧
    (handle_congestion_control alg lat c p).phase = Phase.slow_start ∧
    (handle_congestion_control alg lat c p).ssthresh = 64 := by
  rw [hcc_normal_slow_start alg lat c p h7 hph]
  have hle : p.cwnd * 2 ≤ p.ssthresh := by rw [hss]; linarith
  have hnot : ¬ p.ssthresh ≤ p.cwnd * 2 := by rw [hss]; linarith
  refine ⟨?_, ?_, hss⟩
  · simp only
    exact min_eq_left hle
  · simp [hnot]

/-- C5: from `cwnd = 1, ssthresh = 64` in `slow_start`, six hop-entries in
the normal-acknowledgment band (severity ≤ 7) double `cwnd` through
`2, 4, 8, 16, 32` while the phase stays `slow_start`, and the sixth entry
reaches `cwnd = 64` and moves the phase to `congestion_avoidance`. -/
theorem slow_start_doubling_reaches_64 (alg : Algorithm)
    (l1 l2 l3 l4 l5 l6 c1 c2 c3 c4 c5 c6 : ℚ) (p : Packet)
    (hcw : p.cwnd = 1) (hss : p.ssthresh = 64) (hph : p.phase = Phase.slow_start)
    (h1 : ¬ c1 > 7) (h2 : ¬ c2 > 7) (h3 : ¬ c3 > 7)
    (h4 : ¬ c4 > 7) (h5 : ¬ c5 > 7) (h6 : ¬ c6 > 7) :
    let q1 := handle_congestion_control alg l1 c1 p
    let q2 := handle_congestion_control alg l2 c2 q1
    let q3 := handle_congestion_control alg l3 c3 q2
    let q4 := handle_congestion_control alg l4 c4 q3
    let q5 := handle_congestion_control alg l5 c5 q4
    let q6 := handle_congestion_control alg l6 c6 q5
    q1.cwnd = 2 ∧ q1.phase = Phase.slow_start ∧
    q2.cwnd = 4 ∧ q2.phase = Phase.slow_start ∧
    q3.cwnd = 8 ∧ q3.phase = Phase.slow_start ∧
    q4.cwnd = 16 ∧ q4.phase = Phase.slow_start ∧
    q5.cwnd = 32 ∧ q5.phase = Phase.slow_start ∧
    q6.cwnd = 64 ∧ q6.phase = Phase.congestion_avoidance := by
  intro q1 q2 q3 q4 q5 q6
  have e1 := ss_step_lt alg l1 c1 p h1 hph hss (by rw [hcw]; norm_num)
  have hq1 : q1.cwnd = 2 := by rw [e1.1, hcw]; norm_num
  have e2 := ss_step_lt alg l2 c2 q1 h2 e1.2.1 e1.2.2 (by rw [hq1]; norm_num)
  have hq2 : q2.cwnd = 4 := by rw [e2.1, hq1]; norm_num
  have e3 := ss_step_lt alg l3 c3 q2 h3 e2.2.1 e2.2.2 (by rw [hq2]; norm_num)
  have hq3 : q3.cwnd = 8 := by rw [e3.1, hq2]; norm_num
  have e4 := ss_step_lt alg l4 c4 q3 h4 e3.2.1 e3.2.2 (by rw [hq3]; norm_num)
  have hq4 : q4.cwnd = 16 := by rw [e4.1, hq3]; norm_num
  have e5 := ss_step_lt alg l5 c5 q4 h5 e4.2.1 e4.2.2 (by rw [hq4]; norm_num)
  have hq5 : q5.cwnd = 32 := by rw [e5.1, hq4]; norm_num
  have e6 : q6 = { q5 with rtt := l6 + c6 * 5
                           dup_ack_count := 0
                           cwnd := min (q5.cwnd * 2) q5.ssthresh
                           phase := if q5.ssthresh ≤ q5.cwnd * 2 then Phase.congestion_avoidance
                                    else Phase.slow_start } :=
    hcc_normal_slow_start alg l6 c6 q5 h6 e5.2.1
  have hcond : q5.ssthresh ≤ q5.cwnd * 2 := by rw [e5.2.2, hq5]; norm_num
  have hq6 : q6.cwnd = 64 := by
    rw [e6]
    simp only
    rw [hq5, e5.2.2]
    norm_num
  have hq6p : q6.phase = Phase.congestion_avoidance := by
    rw [e6]
    simp [hcond]
  exact ⟨hq1, e1.2.1, hq2, e2.2.1, hq3, e3.2.1, hq4, e4.2.1, hq5, e5.2.1, hq6, hq6p⟩

/-- Witness for C5 at a concrete input: six zero-congestion entries under
Reno from the initial packet state. -/
theorem slow_start_doubling_reaches_64_witness :
    (handle_congestion_control Algorithm.reno 0 0 (handle_congestion_control Algorithm.reno 0 0
      (handle_congestion_control Algorithm.reno 0 0 (handle_congestion_control Algorithm.reno 0 0
        (handle_congestion_control Algorithm.reno 0 0
          (handle_congestion_control Algorithm.reno 0 0 initPacket)))))).cwnd = 64 :=
  (slow_start_doubling_reaches_64 Algorithm.reno 0 0 0 0 0 0 0 0 0 0 0 0 initPacket
      rfl rfl rfl (by norm_num) (by norm_num) (by norm_num) (by norm_num) (by norm_num)
      (by norm_num)).2.2.2.2.2.2.2.2.2.2.1

/-- C8 counterexample: a severity-8 hop-entry on the initial packet leaves
the incremented duplicate counter below 3, yet the flow's `rtt` is mutated
(recomputed to `latency + congestion * 5 = 50`), contradicting the claim
that nothing but the duplicate counter changes. -/
theorem dup_below_three_rtt_mutated_counterexample :
    (8:ℚ) > 7 ∧ ¬ ((8:ℚ) > 9) ∧
    (handle_congestion_control Algorithm.reno 10 8 initPacket).dup_ack_count = 1 ∧
    (handle_congestion_control Algorithm.reno 10 8 initPacket).dup_ack_count < 3 ∧
    (handle_congestion_control Algorithm.reno 10 8 initPacket).rtt ≠ initPacket.rtt := by
  have e := hcc_dup_small Algorithm.reno 10 8 initPacket (by norm_num) (by norm_num)
    (by norm_num [initPacket, mkPacket])
  rw [e]
  refine ⟨by norm_num, by norm_num, ?_, ?_, ?_⟩ <;> norm_num [initPacket, mkPacket]

/-- C8 amended: on a severity-above-7 hop-entry whose incremented duplicate
counter stays below 3, only the duplicate counter and `rtt` change (`rtt` is
recomputed as `latency + congestion * 5` on every hop-entry evaluation);
`cwnd`, `ssthresh`, phase, `lost` and `retransmitted` are unchanged. -/
theorem dup_below_three_frame_amended (alg : Algorithm) (lat c : ℚ) (p : Packet)
    (h7 : c > 7) (h9 : ¬ c > 9) (hd : p.dup_ack_count + 1 < 3) :
    (handle_congestion_control alg lat c p).cwnd = p.cwnd ∧
    (handle_congestion_control alg lat c p).ssthresh = p.ssthresh ∧
    (handle_congestion_control alg lat c p).phase = p.phase ∧
    (handle_congestion_control alg lat c p).lost = p.lost ∧
    (handle_congestion_control alg lat c p).retransmitted = p.retransmitted ∧
    (handle_congestion_control alg lat c p).dup_ack_count = p.dup_ack_count + 1 ∧
    (handle_congestion_control alg lat c p).rtt = lat + c * 5 := by
  rw [hcc_dup_small alg lat c p h9 h7 hd]
  exact ⟨rfl, rfl, rfl, rfl, rfl, rfl, rfl⟩

/-- Witness for the amended C8 at a concrete input. -/
theorem dup_below_three_frame_amended_witness :
    (handle_congestion_control Algorithm.tahoe 10 8 initPacket).cwnd = initPacket.cwnd ∧
    (handle_congestion_control Algorithm.tahoe 10 8 initPacket).ssthresh = initPacket.ssthresh ∧
    (handle_congestion_control Algorithm.tahoe 10 8 initPacket).phase = initPacket.phase ∧
    (handle_congestion_control Algorithm.tahoe 10 8 initPacket).lost = initPacket.lost ∧
    (handle_congestion_control Algorithm.tahoe 10 8 initPacket).retransmitted = initPacket.retransmitted ∧
    (handle_congestion_control Algorithm.tahoe 10 8 initPacket).dup_ack_count = initPacket.dup_ack_count + 1 ∧
    (handle_congestion_control Algorithm.tahoe 10 8 initPacket).rtt = 10 + 8 * 5 :=
  dup_below_three_frame_amended Algorithm.tahoe 10 8 initPacket (by norm_num) (by norm_num)
    (by norm_num [initPacket, mkPacket])

theorem foldl_dropped_length (l : List ℕ) (log : List PacketEvent) :
    (l.foldl (fun acc i => record_packet_event_dropped 0 i acc) log).length =
      log.length + l.length := by
  induction l generalizing log with
  | nil => simp
  | cons a t ih =>
      rw [List.foldl_cons, ih]
      simp only [record_packet_event_dropped, List.length_append, List.length_singleton,
        List.length_cons, List.length_nil]
      omega

/-- C7 counterexample: 501 dropped-packet recordings from an empty log leave
501 retained entries, because `record_packet_event_dropped` appends without
enforcing the 500-entry cap. -/
theorem dropped_events_exceed_cap_counterexample :
    500 < ((List.range 501).foldl
        (fun acc i => record_packet_event_dropped 0 i acc) []).length := by
  rw [foldl_dropped_length]
  simp

/-- C7 amended: `record_packet_event` never grows the log beyond 500 entries
and, once at the cap, appends by evicting the oldest entry first; but
`record_packet_event_dropped` appends unconditionally, so dropped-packet
recordings can push the log beyond 500 until the next `record_packet_event`
append trims it. -/
theorem event_log_cap_fifo_amended :
    (∀ (keep : Bool) (e : PacketEvent) (log : List PacketEvent), log.length ≤ 500 →
        (record_packet_event keep e log).length ≤ 500) ∧
    (∀ (keep : Bool) (e : PacketEvent) (log : List PacketEvent), log.length = 500 →
        important_event e.event_type = true ∨ keep = true →
        record_packet_event keep e log = log.drop 1 ++ [e]) ∧
    (∀ (time : ℚ) (pid : ℕ) (log : List PacketEvent),
        (record_packet_event_dropped time pid log).length = log.length + 1) := by
  refine ⟨?_, ?_, ?_⟩
  · intro keep e log hlen
    unfold record_packet_event
    split
    · exact hlen
    · split
      · rw [List.length_drop]
        omega
      · rename_i hnot
        simp only [List.length_append, List.length_singleton] at hnot ⊢
        omega
  · intro keep e log hlen hkeep
    have hcond : ¬ (¬ important_event e.event_type = true ∧ ¬ keep = true) := by
      rcases hkeep with h | h <;> simp [h]
    unfold record_packet_event
    rw [if_neg hcond]
    have hlong : (log ++ [e]).length > 500 := by simp [hlen]
    rw [if_pos hlong]
    have hdrop : (log ++ [e]).length - 500 = 1 := by simp [hlen]
    rw [hdrop, List.drop_append_of_le_length (by omega)]
  · intro time pid log
    simp [record_packet_event_dropped]

/-- Witness for the amended C7 at a concrete input. -/
theorem event_log_cap_fifo_amended_witness :
    ([] : List PacketEvent).length ≤ 500 ∧
      (record_packet_event true exEvent []).length ≤ 500 :=
  ⟨by simp, event_log_cap_fifo_amended.1 true exEvent [] (by simp)⟩

/-- C9: a manual single-flow send bypasses loss injection (its outcome never
depends on the loss draw), and when it fails — no selection, identical
endpoints, a non-existent endpoint, or no path — the state is returned
unchanged: no packet added, the counter untouched, no congestion change, no
event recorded. -/
theorem manual_send_failure_leaves_state_unchanged :
    (∀ (time r r' : ℚ) (sk : Bool) (s d : ℕ) (st : SimState),
        spawn_packet time r sk true s d st = spawn_packet time r' sk true s d st) ∧
    (∀ (time r : ℚ) (sk : Bool) (sel_s sel_d : Option ℕ) (st : SimState),
        sel_s = none ∨ sel_d = none ∨
          (∃ s d, sel_s = some s ∧ sel_d = some d ∧
            (s = d ∨ ¬ s < st.g.n ∨ ¬ d < st.g.n ∨
              dijkstra_shortest_path st.g s d = none)) →
        send_manual_packet time r sk sel_s sel_d st = (st, false)) := by
  constructor
  · intro time r r' sk s d st
    cases h : dijkstra_shortest_path st.g s d with
    | none => simp [spawn_packet, h]
    | some v => simp [spawn_packet, h]
  · intro time r sk sel_s sel_d st hfail
    by_cases hn : st.g.n < 2
    · rcases sel_s with _ | s <;> rcases sel_d with _ | d <;>
        simp [send_manual_packet, hn]
    · rcases hfail with h | h | ⟨s, d, hs, hd, hcase⟩
      · subst h
        simp [send_manual_packet, hn]
      · subst h
        rcases sel_s with _ | s <;> simp [send_manual_packet, hn]
      · subst hs
        subst hd
        rcases hcase with h | h | h | h
        · simp [send_manual_packet, hn, h]
        · have : ¬ (s < st.g.n ∧ d < st.g.n) := fun hc => h hc.1
          by_cases hsd : s = d
          · simp [send_manual_packet, hn, hsd]
          · simp [send_manual_packet, hn, hsd, this]
        · have : ¬ (s < st.g.n ∧ d < st.g.n) := fun hc => h hc.2
          by_cases hsd : s = d
          · simp [send_manual_packet, hn, hsd]
          · simp [send_manual_packet, hn, hsd, this]
        · by_cases hsd : s = d
          · simp [send_manual_packet, hn, hsd]
          · by_cases hex : s < st.g.n ∧ d < st.g.n
            · simp [send_manual_packet, hn, hsd, hex, spawn_packet, h]
            · simp [send_manual_packet, hn, hsd, hex]

/-- Witness for C9 at a concrete input: selecting the same node twice on the
example state is rejected with the state unchanged. -/
theorem manual_send_failure_leaves_state_unchanged_witness :
    send_manual_packet 0 0 false (some 1) (some 1) exState = (exState, false) :=
  manual_send_failure_leaves_state_unchanged.2 0 0 false (some 1) (some 1) exState
    (Or.inr (Or.inr ⟨1, 1, rfl, rfl, Or.inl rfl⟩))

/-! ### Lemmas about `argmin` -/

theorem argmin_foldl_eq (dist : ℕ → Option ℕ) (x a : ℕ) (hx : dist x = some a) :
    ∀ (t : List ℕ) (best : ℕ),
      (∀ y ∈ t, y ≠ x → dist y = none) →
      (best = x ∨ dist best = none) →
      (x ∈ t ∨ best = x) →
      t.foldl (fun best y => if optLt (dist y) (dist best) then y else best) best = x := by
  intro t
  induction t with
  | nil =>
      intro best _ _ hmem
      rcases hmem with h | h
      · exact absurd h (List.not_mem_nil x)
      · exact h
  | cons y t' ih =>
      intro best hothers hbest hmem
      simp only [List.foldl_cons]
      have hrest : ∀ z ∈ t', z ≠ x → dist z = none :=
        fun z hz hzx => hothers z (List.mem_cons_of_mem _ hz) hzx
      rcases hbest with hbx | hnone
      · by_cases hyx : y = x
        · have h1 : dist y = some a := by rw [hyx, hx]
          have h2 : dist best = some a := by rw [hbx, hx]
          rw [h1, h2]
          have hlt : optLt (some a) (some a) = false := by simp [optLt]
          rw [hlt]
          simp only [Bool.false_eq_true, if_false]
          exact ih best hrest (Or.inl hbx) (Or.inr hbx)
        · have hy : dist y = none := hothers y (List.mem_cons_self _ _) hyx
          have h2 : dist best = some a := by rw [hbx, hx]
          rw [hy, h2]
          have hlt : optLt none (some a) = false := by simp [optLt]
          rw [hlt]
          simp only [Bool.false_eq_true, if_false]
          exact ih best hrest (Or.inl hbx) (Or.inr hbx)
      · by_cases hyx : y = x
        · have h1 : dist y = some a := by rw [hyx, hx]
          rw [h1, hnone]
          have hlt : optLt (some a) none = true := by simp [optLt]
          rw [hlt]
          simp only [if_true]
          exact ih y hrest (Or.inl hyx) (Or.inr hyx)
        · have hy : dist y = none := hothers y (List.mem_cons_self _ _) hyx
          rw [hy]
          have hlt : optLt none (dist best) = false := by simp [optLt]
          rw [hlt]
          simp only [Bool.false_eq_true, if_false]
          have hxbest : best ≠ x := by
            intro h
            rw [h, hx] at hnone
            exact Option.noConfusion hnone
          have hxt : x ∈ t' := by
            rcases hmem with h | h
            · rcases List.mem_cons.mp h with h' | h'
              · exact absurd h'.symm hyx
              · exact h'
            · exact absurd h.symm (fun he => hxbest he.symm)
          exact ih best hrest (Or.inr hnone) (Or.inl hxt)

theorem argmin_eq_of_unique (dist : ℕ → Option ℕ) (l : List ℕ) (x a : ℕ)
    (hmem : x ∈ l) (hx : dist x = some a)
    (hothers : ∀ y ∈ l, y ≠ x → dist y = none) :
    argmin dist l = some x := by
  cases l with
  | nil => exact absurd hmem (List.not_mem_nil x)
  | cons h t =>
      simp only [argmin, Option.some.injEq]
      refine argmin_foldl_eq dist x a hx t h
        (fun z hz hzx => hothers z (List.mem_cons_of_mem _ hz) hzx) ?_ ?_
      · by_cases hhx : h = x
        · exact Or.inl hhx
        · exact Or.inr (hothers h (List.mem_cons_self _ _) hhx)
      · rcases List.mem_cons.mp hmem with h' | h'
        · exact Or.inr h'.symm
        · exact Or.inl h'

/-- C10: for every node `s` of the topology, the path finder accepts
identical endpoints: `dijkstra_shortest_path(s, s)` succeeds and returns the
single-node path `[s]` with total cost `0`. -/
theorem dijkstra_self_path (g : Graph) (s : ℕ) (hs : s < g.n) :
    dijkstra_shortest_path g s s = some ([s], 0) := by
  unfold dijkstra_shortest_path
  have hargmin :
      argmin (Function.update (fun _ => none) s (some 0)) (List.range g.n) = some s := by
    refine argmin_eq_of_unique _ _ s 0 (List.mem_range.mpr hs) (by simp) ?_
    intro y _ hy
    exact Function.update_noteq hy _ _
  have hfuel : g.n + 2 = (g.n + 1) + 1 := rfl
  simp only [dijkstraLoop, hargmin, Function.update_same, hfuel,
    reconstructPath, List.reverse_singleton, eq_self_iff_true, if_true]

/-- Witness for C10 at a concrete input: node B of the example topology. -/
theorem dijkstra_self_path_witness :
    dijkstra_shortest_path exABC 1 1 = some ([1], 0) :=
  dijkstra_self_path exABC 1 (by norm_num [exABC])

/-! ### Pointwise characterization of the relaxation loop -/

theorem relaxStep_noteq (g : Graph) (current dc : ℕ) (uv : List ℕ)
    (dp : (ℕ → Option ℕ) × (ℕ → Option ℕ)) (j x : ℕ) (hx : x ≠ j) :
    (relaxStep g current dc uv dp j).1 x = dp.1 x ∧
    (relaxStep g current dc uv dp j).2 x = dp.2 x := by
  unfold relaxStep
  split
  · split
    · exact ⟨Function.update_noteq hx _ _, Function.update_noteq hx _ _⟩
    · exact ⟨rfl, rfl⟩
  · exact ⟨rfl, rfl⟩

theorem relaxStep_self (g : Graph) (current dc : ℕ) (uv : List ℕ)
    (dp : (ℕ → Option ℕ) × (ℕ → Option ℕ)) (j : ℕ) :
    ((relaxStep g current dc uv dp j).1 j, (relaxStep g current dc uv dp j).2 j) =
      if j ∈ uv ∧ optLt (some (dc + g.latency current)) (dp.1 j) = true then
        (some (dc + g.latency current), some current)
      else (dp.1 j, dp.2 j) := by
  unfold relaxStep
  by_cases h1 : j ∈ uv
  · by_cases h2 : optLt (some (dc + g.latency current)) (dp.1 j) = true
    · simp [h1, h2]
    · simp [h1, h2]
  · simp [h1]

theorem relax_go (g : Graph) (current dc : ℕ) (uv : List ℕ) :
    ∀ (l : List ℕ), l.Nodup → ∀ (dist prev : ℕ → Option ℕ) (x : ℕ),
      ((l.foldl (relaxStep g current dc uv) (dist, prev)).1 x,
       (l.foldl (relaxStep g current dc uv) (dist, prev)).2 x) =
        if x ∈ l ∧ x ∈ uv ∧ optLt (some (dc + g.latency current)) (dist x) = true then
          (some (dc + g.latency current), some current)
        else (dist x, prev x) := by
  intro l
  induction l with
  | nil =>
      intro _ dist prev x
      simp
  | cons j l' ih =>
      intro hnd dist prev x
      have hnd' : l'.Nodup := hnd.of_cons
      have hjl' : j ∉ l' := (List.nodup_cons.mp hnd).1
      rw [List.foldl_cons]
      by_cases hxj : x = j
      · subst hxj
        have hres := ih hnd' (relaxStep g current dc uv (dist, prev) x).1
          (relaxStep g current dc uv (dist, prev) x).2 x
        rw [Prod.mk.eta] at hres
        rw [hres]
        have hxl' : x ∉ l' := hjl'
        rw [if_neg (fun hc => hxl' hc.1)]
        have := relaxStep_self g current dc uv (dist, prev) x
        rw [Prod.mk.injEq] at this
        by_cases hcond : x ∈ uv ∧ optLt (some (dc + g.latency current)) (dist x) = true
        · rw [if_pos hcond] at this
          rw [this.1, this.2, if_pos ⟨List.mem_cons_self _ _, hcond⟩]
        · rw [if_neg hcond] at this
          rw [this.1, this.2]
          rw [if_neg (fun hc => hcond hc.2)]
      · have hfst := (relaxStep_noteq g current dc uv (dist, prev) j x hxj).1
        have hsnd := (relaxStep_noteq g current dc uv (dist, prev) j x hxj).2
        have hres := ih hnd' (relaxStep g current dc uv (dist, prev) j).1
          (relaxStep g current dc uv (dist, prev) j).2 x
        rw [Prod.mk.eta] at hres
        rw [hres, hfst, hsnd]
        have hmem : x ∈ j :: l' ↔ x ∈ l' := by
          constructor
          · intro h
            rcases List.mem_cons.mp h with h' | h'
            · exact absurd h' hxj
            · exact h'
          · exact List.mem_cons_of_mem _
        by_cases hc : x ∈ l' ∧ x ∈ uv ∧ optLt (some (dc + g.latency current)) (dist x) = true
        · rw [if_pos hc, if_pos ⟨hmem.mpr hc.1, hc.2⟩]
        · rw [if_neg hc, if_neg (fun hh => hc ⟨hmem.mp hh.1, hh.2⟩)]

theorem relax_apply (g : Graph) (current dc : ℕ) (uv : List ℕ)
    (dist prev : ℕ → Option ℕ) (x : ℕ) :
    ((relax g current dc uv dist prev).1 x, (relax g current dc uv dist prev).2 x) =
      if x ∈ g.connections current ∧ x ∈ uv ∧
          optLt (some (dc + g.latency current)) (dist x) = true then
        (some (dc + g.latency current), some current)
      else (dist x, prev x) := by
  unfold relax
  exact relax_go g current dc uv (g.connections current)
    (List.Nodup.filter _ (List.nodup_range _)) dist prev x

/-! ### The Dijkstra loop invariant -/

theorem nodup_lt_length_le (l : List ℕ) (n : ℕ) (hnd : l.Nodup)
    (hlt : ∀ v ∈ l, v < n) : l.length ≤ n := by
  have hsub : l.toFinset ⊆ Finset.range n := by
    intro x hx
    exact Finset.mem_range.mpr (hlt x (List.mem_toFinset.mp hx))
  have hc := Finset.card_le_card hsub
  rw [List.toFinset_card_of_nodup hnd, Finset.card_range] at hc
  exact hc

theorem DInv_init (g : Graph) (s : ℕ) :
    DInv g s (Function.update (fun _ => none) s (some 0)) (fun _ => none)
      (List.range g.n) := by
  refine ⟨fun _ => 0, ?_, ?_, ?_, ?_, ?_, ?_, ?_, ?_, ?_⟩
  · intro v u h
    exact Option.noConfusion h
  · intro v u h
    exact Option.noConfusion h
  · intro u
    exact Nat.zero_le _
  · exact Function.update_same _ _ _
  · rfl
  · intro v hvs hvnone
    exact absurd (Function.update_noteq hvs _ _) hvnone
  · exact List.nodup_range g.n
  · intro v hv
    exact List.mem_range.mp hv
  · intro p hp hnp
    exact absurd (List.mem_range.mpr hp) hnp

theorem DInv_step (g : Graph) (s current dc : ℕ) (dist prev : ℕ → Option ℕ)
    (uv : List ℕ) (hinv : DInv g s dist prev uv)
    (hcur : current ∈ uv) (hdc : dist current = some dc) :
    DInv g s (relax g current dc (uv.erase current) dist prev).1
      (relax g current dc (uv.erase current) dist prev).2 (uv.erase current) := by
  obtain ⟨rk, hA, hB, hRk, hS0, hSp, hD, hNd, hRange, hRel⟩ := hinv
  have h1 : ∀ x, (relax g current dc (uv.erase current) dist prev).1 x =
      if x ∈ g.connections current ∧ x ∈ uv.erase current ∧
          optLt (some (dc + g.latency current)) (dist x) = true
      then some (dc + g.latency current) else dist x := by
    intro x
    have h := congrArg Prod.fst (relax_apply g current dc (uv.erase current) dist prev x)
    simpa [apply_ite Prod.fst] using h
  have h2 : ∀ x, (relax g current dc (uv.erase current) dist prev).2 x =
      if x ∈ g.connections current ∧ x ∈ uv.erase current ∧
          optLt (some (dc + g.latency current)) (dist x) = true
      then some current else prev x := by
    intro x
    have h := congrArg Prod.snd (relax_apply g current dc (uv.erase current) dist prev x)
    simpa [apply_ite Prod.snd] using h
  have hcur_n : current < g.n := hRange current hcur
  have hcur_uv' : current ∉ uv.erase current :=
    fun hc => absurd rfl ((List.Nodup.mem_erase_iff hNd).mp hc).1
  have hmem_uv' : ∀ x, x ∈ uv.erase current → x ∈ uv := fun _ => List.mem_of_mem_erase
  have hnotin : ∀ x, x ∉ uv.erase current → x ≠ current → x ∉ uv :=
    fun x h hne hc => h ((List.mem_erase_of_ne hne).mpr hc)
  have hL1 : 1 ≤ uv.length := List.length_pos.mpr (List.ne_nil_of_mem hcur)
  have hLn : uv.length ≤ g.n := nodup_lt_length_le uv g.n hNd hRange
  have hlen' : (uv.erase current).length = uv.length - 1 := List.length_erase_of_mem hcur
  have hconn : ∀ x, x ∈ g.connections current ↔ x < g.n ∧ g.adj current x = true := by
    intro x
    simp [Graph.connections, List.mem_filter, List.mem_range]
  have hsame : ∀ x, x ∉ uv.erase current →
      (relax g current dc (uv.erase current) dist prev).1 x = dist x ∧
      (relax g current dc (uv.erase current) dist prev).2 x = prev x := by
    intro x hx
    rw [h1 x, h2 x, if_neg (fun hc => hx hc.2.1), if_neg (fun hc => hx hc.2.1)]
    exact ⟨rfl, rfl⟩
  have hRnone : ∀ x, dist x ≠ none →
      (relax g current dc (uv.erase current) dist prev).1 x ≠ none := by
    intro x hx
    rw [h1 x]
    split
    · exact Option.noConfusion
    · exact hx
  refine ⟨Function.update rk current (g.n - uv.length + 1), ?_, ?_, ?_, ?_, ?_, ?_, ?_, ?_, ?_⟩
  · -- predecessor-edge clause
    intro v u hvu
    by_cases hc : v ∈ g.connections current ∧ v ∈ uv.erase current ∧
        optLt (some (dc + g.latency current)) (dist v) = true
    · rw [h2 v, if_pos hc] at hvu
      obtain rfl : current = u := Option.some.injEq _ _ |>.mp hvu
      obtain ⟨hvn, hadj⟩ := (hconn v).mp hc.1
      refine ⟨hadj, hcur_uv', hcur_n, dc, ?_, ?_⟩
      · rw [(hsame current hcur_uv').1]
        exact hdc
      · rw [h1 v, if_pos hc]
    · rw [h2 v, if_neg hc] at hvu
      obtain ⟨hadj, huuv, hun, du, hdu, hdv⟩ := hA v u hvu
      have huuv' : u ∉ uv.erase current := fun hx => huuv (hmem_uv' u hx)
      refine ⟨hadj, huuv', hun, du, ?_, ?_⟩
      · rw [(hsame u huuv').1]
        exact hdu
      · rw [h1 v, if_neg hc]
        exact hdv
  · -- rank clause
    intro v u hvu hvnot
    by_cases hc : v ∈ g.connections current ∧ v ∈ uv.erase current ∧
        optLt (some (dc + g.latency current)) (dist v) = true
    · exact absurd hc.2.1 hvnot
    · rw [h2 v, if_neg hc] at hvu
      obtain ⟨_, huuv, _, _, _, _⟩ := hA v u hvu
      have hune : u ≠ current := fun h => huuv (h ▸ hcur)
      rw [Function.update_noteq hune]
      by_cases hvc : v = current
      · rw [hvc, Function.update_same]
        have := hRk u
        omega
      · rw [Function.update_noteq hvc]
        exact hB v u hvu (hnotin v hvnot hvc)
  · -- rank bound clause
    intro u
    rw [hlen']
    by_cases huc : u = current
    · rw [huc, Function.update_same]
      omega
    · rw [Function.update_noteq huc]
      have := hRk u
      omega
  · -- source distance clause
    have hcs : ¬ (s ∈ g.connections current ∧ s ∈ uv.erase current ∧
        optLt (some (dc + g.latency current)) (dist s) = true) := by
      intro hc
      have := hc.2.2
      rw [hS0] at this
      simp [optLt] at this
    rw [h1 s, if_neg hcs]
    exact hS0
  · -- source predecessor clause
    have hcs : ¬ (s ∈ g.connections current ∧ s ∈ uv.erase current ∧
        optLt (some (dc + g.latency current)) (dist s) = true) := by
      intro hc
      have := hc.2.2
      rw [hS0] at this
      simp [optLt] at this
    rw [h2 s, if_neg hcs]
    exact hSp
  · -- finite-distance-has-predecessor clause
    intro v hvs hvnone
    by_cases hc : v ∈ g.connections current ∧ v ∈ uv.erase current ∧
        optLt (some (dc + g.latency current)) (dist v) = true
    · rw [h2 v, if_pos hc]
      exact Option.noConfusion
    · rw [h1 v, if_neg hc] at hvnone
      rw [h2 v, if_neg hc]
      exact hD v hvs hvnone
  · exact hNd.erase current
  · intro v hv
    exact hRange v (hmem_uv' v hv)
  · -- relaxed-neighbourhood clause
    intro p hpn hpnot
    by_cases hpc : p = current
    · subst hpc
      constructor
      · rw [(hsame p hcur_uv').1]
        rw [hdc]
        exact Option.noConfusion
      · intro q hadj hqn
        by_cases hq : q ∈ g.connections p ∧ q ∈ uv.erase p ∧
            optLt (some (dc + g.latency p)) (dist q) = true
        · rw [h1 q, if_pos hq]
          exact Option.noConfusion
        · rw [h1 q, if_neg hq]
          have hqconn : q ∈ g.connections p := (hconn q).mpr ⟨hqn, hadj⟩
          by_cases hqlt : optLt (some (dc + g.latency p)) (dist q) = true
          · have hquv : q ∉ uv.erase p := fun hx => hq ⟨hqconn, hx, hqlt⟩
            by_cases hqc : q = p
            · rw [hqc, hdc]
              exact Option.noConfusion
            · have hqnot : q ∉ uv := hnotin q hquv hqc
              exact (hRel q hqn hqnot).1
          · intro hqnone
            rw [hqnone] at hqlt
            simp [optLt] at hqlt
    · have hpnot' : p ∉ uv := hnotin p hpnot hpc
      obtain ⟨hp1, hp2⟩ := hRel p hpn hpnot'
      exact ⟨hRnone p hp1, fun q hadj hqn => hRnone q (hp2 q hadj hqn)⟩

/-! ### Path reconstruction -/

theorem reconstruct_base (g : Graph) (s : ℕ) (dist prev : ℕ → Option ℕ)
    (hS0 : dist s = some 0)
    (hD : ∀ v, v ≠ s → dist v ≠ none → prev v ≠ none)
    (m v dv : ℕ) (hdv : dist v = some dv) (hpv : prev v = none) :
    ∃ l, reconstructPath prev (m + 1) v = v :: l ∧
      (v :: l).getLast? = some s ∧
      dv = (l.map g.latency).sum ∧
      List.Chain' (fun a b => g.adj b a = true) (v :: l) := by
  have hvs : v = s := by
    by_contra hne
    exact hD v hne (by rw [hdv]; exact Option.noConfusion) hpv
  subst hvs
  have hdv0 : dv = 0 := by
    rw [hS0] at hdv
    exact (Option.some.injEq _ _ |>.mp hdv).symm
  refine ⟨[], ?_, rfl, by simp [hdv0], List.chain'_singleton v⟩
  simp [reconstructPath, hpv]

theorem reconstruct_ok (g : Graph) (s : ℕ) (dist prev : ℕ → Option ℕ) (rk : ℕ → ℕ)
    (hA : ∀ v u, prev v = some u → g.adj u v = true ∧ u < g.n ∧
        ∃ du, dist u = some du ∧ dist v = some (du + g.latency u))
    (hB : ∀ v u w, prev v = some u → prev u = some w → rk w < rk u)
    (hS0 : dist s = some 0)
    (hD : ∀ v, v ≠ s → dist v ≠ none → prev v ≠ none) :
    ∀ (m v dv : ℕ), dist v = some dv → (∀ u, prev v = some u → rk u < m) →
      ∃ l, reconstructPath prev (m + 1) v = v :: l ∧
        (v :: l).getLast? = some s ∧
        dv = (l.map g.latency).sum ∧
        List.Chain' (fun a b => g.adj b a = true) (v :: l) := by
  intro m
  induction m with
  | zero =>
      intro v dv hdv hrk
      cases hpv : prev v with
      | none => exact reconstruct_base g s dist prev hS0 hD 0 v dv hdv hpv
      | some u => exact absurd (hrk u hpv) (Nat.not_lt_zero _)
  | succ m' ih =>
      intro v dv hdv hrk
      cases hpv : prev v with
      | none => exact reconstruct_base g s dist prev hS0 hD (m' + 1) v dv hdv hpv
      | some u =>
          obtain ⟨hadj, hun, du, hdu, hdveq⟩ := hA v u hpv
          have hdveq' : dv = du + g.latency u := by
            rw [hdv] at hdveq
            exact Option.some.injEq _ _ |>.mp hdveq.symm |>.symm
          have hrk' : ∀ w, prev u = some w → rk w < m' := by
            intro w hw
            have h1 := hB v u w hpv hw
            have h2 := hrk u hpv
            omega
          obtain ⟨l', he', hlast', hsum', hchain'⟩ := ih u du hdu hrk'
          refine ⟨u :: l', ?_, ?_, ?_, ?_⟩
          · show reconstructPath prev (m' + 1 + 1) v = v :: u :: l'
            rw [reconstructPath, hpv]
            exact congrArg (fun t => v :: t) he'
          · rw [List.getLast?_cons_cons]
            exact hlast'
          · rw [hdveq', hsum']
            simp [Nat.add_comm]
          · rw [List.chain'_cons]
            exact ⟨hadj, hchain'⟩

/-! ### More `argmin` lemmas -/

theorem foldl_pick_mem (dist : ℕ → Option ℕ) :
    ∀ (t : List ℕ) (best : ℕ) (S : List ℕ), best ∈ S → (∀ y ∈ t, y ∈ S) →
      t.foldl (fun best y => if optLt (dist y) (dist best) then y else best) best ∈ S := by
  intro t
  induction t with
  | nil => intro best S hb _; exact hb
  | cons y t' ih =>
      intro best S hb hy
      rw [List.foldl_cons]
      have hstep : (if optLt (dist y) (dist best) = true then y else best) ∈ S := by
        split
        · exact hy y (List.mem_cons_self _ _)
        · exact hb
      exact ih _ S hstep (fun z hz => hy z (List.mem_cons_of_mem _ hz))

theorem argmin_mem (dist : ℕ → Option ℕ) (l : List ℕ) (c : ℕ)
    (h : argmin dist l = some c) : c ∈ l := by
  cases l with
  | nil => exact Option.noConfusion h
  | cons a t =>
      simp only [argmin, Option.some.injEq] at h
      rw [← h]
      exact foldl_pick_mem dist t a (a :: t) (List.mem_cons_self _ _)
        (fun y hy => List.mem_cons_of_mem _ hy)

theorem foldl_pick_none (dist : ℕ → Option ℕ) :
    ∀ (t : List ℕ) (best : ℕ),
      dist (t.foldl (fun best y => if optLt (dist y) (dist best) then y else best) best) = none →
      dist best = none ∧ ∀ y ∈ t, dist y = none := by
  intro t
  induction t with
  | nil =>
      intro best h
      exact ⟨h, by intro y hy; exact absurd hy (List.not_mem_nil y)⟩
  | cons y t' ih =>
      intro best h
      rw [List.foldl_cons] at h
      obtain ⟨h1, h2⟩ := ih _ h
      by_cases hc : optLt (dist y) (dist best) = true
      · rw [if_pos hc] at h1
        rw [h1] at hc
        simp [optLt] at hc
      · rw [if_neg hc] at h1
        have hyn : dist y = none := by
          by_contra hyn
          obtain ⟨a, ha⟩ := Option.ne_none_iff_exists'.mp hyn
          rw [ha, h1] at hc
          simp [optLt] at hc
        refine ⟨h1, ?_⟩
        intro z hz
        rcases List.mem_cons.mp hz with rfl | hz'
        · exact hyn
        · exact h2 z hz'

theorem argmin_all_none (dist : ℕ → Option ℕ) (l : List ℕ) (c : ℕ)
    (h : argmin dist l = some c) (hc : dist c = none) : ∀ x ∈ l, dist x = none := by
  cases l with
  | nil => exact fun x hx => absurd hx (List.not_mem_nil x)
  | cons a t =>
      simp only [argmin, Option.some.injEq] at h
      rw [← h] at hc
      obtain ⟨h1, h2⟩ := foldl_pick_none dist t a hc
      intro x hx
      rcases List.mem_cons.mp hx with rfl | hx'
      · exact h1
      · exact h2 x hx'

theorem argmin_ne_none (dist : ℕ → Option ℕ) (l : List ℕ) (h : l ≠ []) :
    argmin dist l ≠ none := by
  cases l with
  | nil => exact absurd rfl h
  | cons a t => simp [argmin]

/-! ### Completeness of the search -/

theorem chain_last_visited (g : Graph) (dist : ℕ → Option ℕ) (uv : List ℕ)
    (hwf : g.WF)
    (hrel : ∀ p, p < g.n → p ∉ uv →
        dist p ≠ none ∧ ∀ q, g.adj p q = true → q < g.n → dist q ≠ none)
    (hallnone : ∀ x ∈ uv, dist x = none) :
    ∀ (l : List ℕ) (a : ℕ), a < g.n → a ∉ uv →
      List.Chain' (fun x y => g.adj x y = true) (a :: l) →
      ∀ b, (a :: l).getLast? = some b → b ∉ uv := by
  intro l
  induction l with
  | nil =>
      intro a ha hanot _ b hb
      have hba : a = b := by simpa using hb
      rw [← hba]
      exact hanot
  | cons x l' ih =>
      intro a ha hanot hchain b hb
      obtain ⟨hax, hchain'⟩ := List.chain'_cons.mp hchain
      have hxn : x < g.n := (hwf a x hax).2
      have hdx : dist x ≠ none := (hrel a ha hanot).2 x hax hxn
      have hxnot : x ∉ uv := fun hx => hdx (hallnone x hx)
      rw [List.getLast?_cons_cons] at hb
      exact ih x hxn hxnot hchain' b hb

theorem reach_no_break (g : Graph) (s d : ℕ) (dist : ℕ → Option ℕ) (uv : List ℕ)
    (hwf : g.WF) (hreach : Reach g s d) (hd : d ∈ uv)
    (hS0 : dist s = some 0)
    (hrel : ∀ p, p < g.n → p ∉ uv →
        dist p ≠ none ∧ ∀ q, g.adj p q = true → q < g.n → dist q ≠ none)
    (hallnone : ∀ x ∈ uv, dist x = none) : False := by
  obtain ⟨p0, hhead, hlast, hchain⟩ := hreach
  cases p0 with
  | nil => exact Option.noConfusion hhead
  | cons a rest =>
      have ha : a = s := by simpa using hhead
      subst ha
      have hsnot : a ∉ uv := by
        intro hx
        rw [hallnone a hx] at hS0
        exact Option.noConfusion hS0
      cases rest with
      | nil =>
          have had : a = d := by simpa using hlast
          rw [← had] at hd
          exact hsnot hd
      | cons x rest' =>
          have hsn : a < g.n := (hwf a x (List.chain'_cons.mp hchain).1).1
          exact chain_last_visited g dist uv hwf hrel hallnone (x :: rest') a hsn hsnot
            hchain d hlast hd

theorem dijkstraLoop_reaches (g : Graph) (s d : ℕ)
    (hwf : g.WF) (hreach : Reach g s d) :
    ∀ (fuel : ℕ) (dist prev : ℕ → Option ℕ) (uv : List ℕ),
      DInv g s dist prev uv → uv.length < fuel → d ∈ uv →
      ∃ p c, dijkstraLoop g d fuel dist prev uv = some (p, c) ∧
        p.head? = some s ∧ p.getLast? = some d ∧
        List.Chain' (fun a b => g.adj a b = true) p ∧
        c = path_cost g p := by
  intro fuel
  induction fuel with
  | zero =>
      intro dist prev uv _ hlen _
      exact absurd hlen (Nat.not_lt_zero _)
  | succ fuel ih =>
      intro dist prev uv hinv hlen hd
      have huvne : uv ≠ [] := List.ne_nil_of_mem hd
      cases huv : argmin dist uv with
      | none => exact absurd huv (argmin_ne_none dist uv huvne)
      | some current =>
          have hcur : current ∈ uv := argmin_mem dist uv current huv
          obtain ⟨rk, hA, hB, hRk, hS0, hSp, hD, hNd, hRange, hRel⟩ := hinv
          cases hdcc : dist current with
          | none =>
              exact absurd (reach_no_break g s d dist uv hwf hreach hd hS0 hRel
                (argmin_all_none dist uv current huv hdcc)) not_false
          | some dc =>
              by_cases hcd : current = d
              · subst hcd
                have hA' : ∀ v u, prev v = some u → g.adj u v = true ∧ u < g.n ∧
                    ∃ du, dist u = some du ∧ dist v = some (du + g.latency u) := by
                  intro v u h
                  obtain ⟨ha, _, hn, du, h1, h2⟩ := hA v u h
                  exact ⟨ha, hn, du, h1, h2⟩
                have hB' : ∀ v u w, prev v = some u → prev u = some w → rk w < rk u := by
                  intro v u w hv hu
                  exact hB u w hu (hA v u hv).2.1
                have hrkb : ∀ u, prev current = some u → rk u < g.n + 1 := by
                  intro u _
                  have := hRk u
                  omega
                obtain ⟨l, he, hlast, hsum, hchain⟩ :=
                  reconstruct_ok g s dist prev rk hA' hB' hS0 hD (g.n + 1) current dc
                    hdcc hrkb
                have hf : g.n + 2 = g.n + 1 + 1 := rfl
                refine ⟨(current :: l).reverse, dc, ?_, ?_, ?_, ?_, ?_⟩
                · simp only [dijkstraLoop, huv, hdcc, eq_self_iff_true, if_true]
                  rw [hf, he]
                · rw [List.head?_reverse]
                  exact hlast
                · rw [List.getLast?_reverse]
                  rfl
                · exact List.chain'_reverse.mpr hchain
                · rw [path_cost, List.reverse_cons, List.dropLast_concat,
                    List.map_reverse, List.sum_reverse]
                  exact hsum
              · have hinv' : DInv g s dist prev uv :=
                  ⟨rk, hA, hB, hRk, hS0, hSp, hD, hNd, hRange, hRel⟩
                have hstep := DInv_step g s current dc dist prev uv hinv' hcur hdcc
                have hlen1 : 1 ≤ uv.length := List.length_pos.mpr huvne
                have hlen' : (uv.erase current).length < fuel := by
                  rw [List.length_erase_of_mem hcur]
                  omega
                have hd' : d ∈ uv.erase current :=
                  (List.mem_erase_of_ne (fun h => hcd h.symm)).mpr hd
                obtain ⟨p, c, hres, hh, hl, hch, hc⟩ :=
                  ih (relax g current dc (uv.erase current) dist prev).1
                    (relax g current dc (uv.erase current) dist prev).2
                    (uv.erase current) hstep hlen' hd'
                refine ⟨p, c, ?_, hh, hl, hch, hc⟩
                simp only [dijkstraLoop, huv, hdcc, if_neg hcd]
                exact hres

/-- C1: for every reachable pair `(s, d)` in a well-formed topology,
`dijkstra_shortest_path` returns a path from `s` to `d` (inclusive) along
edges of the topology whose total cost equals the sum of the latencies of
every node on the path except the destination; in particular, on the linear
example topology A-B-C with `latency(A) = 10` and `latency(B) = 20`, it
returns the path `[A, B, C]` with total cost `30`. -/
theorem dijkstra_returns_path_with_latency_cost :
    (∀ (g : Graph) (s d : ℕ), g.WF → s < g.n → d < g.n → Reach g s d →
      ∃ p c, dijkstra_shortest_path g s d = some (p, c) ∧
        p.head? = some s ∧ p.getLast? = some d ∧
        List.Chain' (fun a b => g.adj a b = true) p ∧
        c = path_cost g p) ∧
    exABC.latency 0 = 10 ∧ exABC.latency 1 = 20 ∧
    dijkstra_shortest_path exABC 0 2 = some ([0, 1, 2], 30) ∧
    path_cost exABC [0, 1, 2] = 30 := by
  refine ⟨?_, rfl, rfl, by decide, rfl⟩
  intro g s d hwf _ hdn hreach
  have hlen : (List.range g.n).length < g.n + 1 := by
    rw [List.length_range]
    omega
  exact dijkstraLoop_reaches g s d hwf hreach (g.n + 1)
    (Function.update (fun _ => none) s (some 0)) (fun _ => none) (List.range g.n)
    (DInv_init g s) hlen (List.mem_range.mpr hdn)

/-- Witness for C1 at a concrete input: the A-B-C example topology with
source A and destination C. -/
theorem dijkstra_returns_path_with_latency_cost_witness :
    ∃ p c, dijkstra_shortest_path exABC 0 2 = some (p, c) ∧
      p.head? = some 0 ∧ p.getLast? = some 2 ∧
      List.Chain' (fun a b => exABC.adj a b = true) p ∧
      c = path_cost exABC p :=
  dijkstra_returns_path_with_latency_cost.1 exABC 0 2
    (by
      intro u v h
      simp only [exABC, Bool.or_eq_true, Bool.and_eq_true, beq_iff_eq] at h
      rcases h with ((⟨rfl, rfl⟩ | ⟨rfl, rfl⟩) | ⟨rfl, rfl⟩) | ⟨rfl, rfl⟩ <;>
        exact ⟨by norm_num [exABC], by norm_num [exABC]⟩)
    (by norm_num [exABC]) (by norm_num [exABC])
    ⟨[0, 1, 2], rfl, rfl,
      List.chain'_cons.mpr ⟨rfl, List.chain'_cons.mpr ⟨rfl, List.chain'_singleton 2⟩⟩⟩

end CNProject
